import Mathlib

/-
Verification of the action-editor-search program (src/search.py).
Shallow embedding: each Python function the claims refer to is translated
into an executable Lean definition; HTTP responses are modelled as status
codes (Nat) and response streams as functions Nat → Nat.
-/

namespace ActionEditorSearch

/-- Embedding of the Python `Paper` class: an id, a title, and the two
nullable provenance fields `cited_paper` and `referenced_by_paper`. -/
inductive Paper : Type where
  | mk (id : String) (title : String)
       (cited_paper : Option Paper) (referenced_by_paper : Option Paper)

def Paper.id : Paper → String
  | .mk i _ _ _ => i

def Paper.title : Paper → String
  | .mk _ t _ _ => t

def Paper.cited_paper : Paper → Option Paper
  | .mk _ _ c _ => c

def Paper.referenced_by_paper : Paper → Option Paper
  | .mk _ _ _ r => r

/-- Embedding of `Paper.get_path_depth`: checks `cited_paper` first, then
`referenced_by_paper`, returning `1 +` the parent's depth, and 0 for a
paper with no provenance parent (a seed). -/
def Paper.get_path_depth : Paper → Nat
  | .mk _ _ (some c) _ => 1 + c.get_path_depth
  | .mk _ _ none (some r) => 1 + r.get_path_depth
  | .mk _ _ none none => 0

/-!
## Retry client (`request_with_retries`)

HTTP responses are modelled by their status codes (`Nat`); the sequence of
responses the server would give to the successive `session.get` calls is a
function `resp : Nat → Nat` (attempt index ↦ status).  The result records
the returned response (`none` models the `UnboundLocalError` raised when
the loop body never ran and `response` is unbound), the list of sleep
durations performed, and the number of requests sent.
-/

structure RwrResult where
  response : Option Nat
  sleeps : List Nat
  requests : Nat

/-- The `for attempt in range(max_retries)` loop of `request_with_retries`,
with `fuel` the number of remaining iterations, `i` the number of requests
already sent, `wait` the current `wait_time`, `sleeps` the sleeps performed
so far and `last` the most recent response (if any). -/
def rwrAux (resp : Nat → Nat) : Nat → Nat → Nat → List Nat → Option Nat → RwrResult
  | 0, i, _, sleeps, last => ⟨last, sleeps, i⟩
  | fuel + 1, i, wait, sleeps, _ =>
    let r := resp i
    if r ≠ 429 then ⟨some r, sleeps, i + 1⟩
    else rwrAux resp fuel (i + 1) (wait * 2) (sleeps ++ [wait]) (some r)

/-- Embedding of `request_with_retries(url, max_retries=4, session=None)`:
`wait_time` starts at 1, each 429 response triggers a sleep of the current
`wait_time` followed by doubling; a non-429 response is returned at once;
after the loop the last response is returned (unbound if no attempt ran). -/
def request_with_retries (resp : Nat → Nat) (max_retries : Nat) : RwrResult :=
  rwrAux resp max_retries 0 1 [] none

/-!
## Match-check pass (`check_papers`)

The editor roster (a Python dict editor ↦ list of paper ids) is an
association list with distinct keys; `findings` (a Python dict editor ↦
list of matched papers) is a function to `Option (List Paper)` where
`none` models an absent key.
-/

/-- The inner `for paper in papers` loop of `check_papers` for one editor:
each paper whose id is in the editor's id set is appended to the editor's
findings entry, the entry being created (as `[]`, then appended to) if
absent. -/
def checkEditor (papers : List Paper) (ids : List String)
    (cur : Option (List Paper)) : Option (List Paper) :=
  papers.foldl
    (fun cur p => if p.id ∈ ids then some (cur.getD [] ++ [p]) else cur) cur

/-- Embedding of `check_papers(papers, editors_paper_ids, findings)`:
iterates over the roster entries in order, updating the findings map. -/
def check_papers (papers : List Paper) : List (String × List String) →
    (String → Option (List Paper)) → String → Option (List Paper)
  | [], findings => findings
  | (editor, ids) :: rest, findings =>
    check_papers papers rest
      (fun x => if x = editor then checkEditor papers ids (findings editor)
                else findings x)

/-- `n` successive calls of `check_papers` with the same batch and roster. -/
def repeatCheck (papers : List Paper) (roster : List (String × List String)) :
    Nat → (String → Option (List Paper)) → String → Option (List Paper)
  | 0, findings => findings
  | n + 1, findings => repeatCheck papers roster n (check_papers papers roster findings)

/-!
## Graph neighbor fetcher (`get_citing_and_referenced_papers`)

The response to the paper-detail request is modelled by its status code and
the two optional JSON fields; `none` models an absent field, so that
`data.get('citations', [])` is `citations.getD []`.
-/

structure S2Response where
  status_code : Nat
  citations : Option (List (String × String))
  references : Option (List (String × String))

/-- Embedding of `get_citing_and_referenced_papers`: on a response that is
truthy (status < 400, the `requests` library's `__bool__`) and has status
200, builds unparented `Paper` records from the `citations` and
`references` fields (defaulting to `[]` when a field is absent); otherwise
returns two empty lists. -/
def get_citing_and_referenced_papers (r : S2Response) : List Paper × List Paper :=
  if r.status_code < 400 ∧ r.status_code = 200 then
    ((r.citations.getD []).map (fun c => Paper.mk c.1 c.2 none none),
     (r.references.getD []).map (fun c => Paper.mk c.1 c.2 none none))
  else ([], [])

/-!
## Roster-builder batch retry loop (`scrape_editors_paper_ids`)

The `while r.status_code == 429` loop.  `resp : Nat → Nat` gives the status
of the successive POST requests (`resp 0` is the first request, sent before
the loop).  `wait_time` is always a power of two, carried as its exponent
`k` (`wait_time = 2 ^ k`); the loop sleeps `2 ^ k`, doubles the wait, sends
the next request, and breaks if the doubled wait exceeds 10.  Returns the
final response status and the list of sleep durations. -/

def batchLoop (resp : Nat → Nat) (i k : Nat) (r : Nat) (sleeps : List Nat) :
    Nat × List Nat :=
  if r = 429 then
    let sleeps' := sleeps ++ [2 ^ k]
    let r' := resp (i + 1)
    if h : 2 ^ (k + 1) > 10 then (r', sleeps')
    else batchLoop resp (i + 1) (k + 1) r' sleeps'
  else (r, sleeps)
termination_by 4 - k
decreasing_by
  have hk : k + 1 ≤ 3 := by
    by_contra hc
    apply h
    calc (10 : Nat) < 2 ^ 4 := by norm_num
      _ ≤ 2 ^ (k + 1) := Nat.pow_le_pow_right (by norm_num) (by omega)
  omega

/-- The batch-lookup call of `scrape_editors_paper_ids` with its retry
loop: the first POST is sent, then the loop runs with `wait_time = 1`. -/
def scrape_batch_retry (resp : Nat → Nat) : Nat × List Nat :=
  batchLoop resp 0 0 (resp 0) []

/-!
## BFS traversal engine (the `while fringe:` loop of `main`)

The remote neighbor service is abstracted as a function
`f : String → List (String × String) × List (String × String)` giving, for
a paper id, the (id, title) pairs of its citing and referenced papers —
the outcome of `get_citing_and_referenced_papers` for that id.  The BFS
state carries the fringe, the `found_ids` set (as a list; only membership
matters) and the findings map.
-/

structure BfsState where
  fringe : List Paper
  found_ids : List String
  findings : String → Option (List Paper)

/-- One of the two `for`-loops over fetched neighbors in the BFS body:
each (id, title) pair whose id is not yet in `found_ids` is added to the
found set and turned into a `Paper` (via `make`, which sets the
provenance parent) collected in order; pairs with already-found ids are
skipped.  Returns the new papers and the extended found set. -/
def collectNew (make : String × String → Paper) :
    List (String × String) → List String → List Paper × List String
  | [], found => ([], found)
  | pr :: rest, found =>
    if pr.1 ∈ found then collectNew make rest found
    else
      let res := collectNew make rest (pr.1 :: found)
      (make pr :: res.1, res.2)

/-- One iteration of the BFS `while` loop: pop the front paper; exit the
loop (`none`) if the fringe is empty or the popped paper's path depth
exceeds the cutoff; otherwise fetch neighbors, collect the unseen citing
papers (provenance `cited`) then the unseen referenced papers (provenance
`referenced_by`), append them to the fringe, and run the match-check pass
on the batch. -/
def bfsStep (f : String → List (String × String) × List (String × String))
    (roster : List (String × List String)) (D : Nat) (s : BfsState) :
    Option BfsState :=
  match s.fringe with
  | [] => none
  | paper :: rest =>
    if paper.get_path_depth > D then none
    else
      let resC := collectNew (fun pr => Paper.mk pr.1 pr.2 (some paper) none)
        (f paper.id).1 s.found_ids
      let resR := collectNew (fun pr => Paper.mk pr.1 pr.2 none (some paper))
        (f paper.id).2 resC.2
      let new_papers := resC.1 ++ resR.1
      some ⟨rest ++ new_papers, resR.2,
        check_papers new_papers roster s.findings⟩

/-- The BFS loop run with `fuel` iterations allowed: `some s` is the state
at normal loop exit, `none` means the fuel ran out first. -/
def bfsRun (f : String → List (String × String) × List (String × String))
    (roster : List (String × List String)) (D : Nat) :
    Nat → BfsState → Option BfsState
  | 0, _ => none
  | fuel + 1, s =>
    match bfsStep f roster D s with
    | none => some s
    | some s' => bfsRun f roster D fuel s'

/-- The BFS state set up by `main` just before the loop: the seed papers
are match-checked against the roster (findings start empty), the fringe is
the seed list, and `found_ids = set(paper.id for paper in papers)`
(modelled by `dedup`; only membership and duplicate-freeness matter). -/
def initState (seeds : List Paper) (roster : List (String × List String)) :
    BfsState :=
  ⟨seeds, (seeds.map Paper.id).dedup, check_papers seeds roster (fun _ => none)⟩

/-- Size of the neighbor tree of paper id `x` to `k` further levels under
neighbor function `f`, ignoring deduplication: an upper bound on the number
of loop iterations the BFS can still spend below `x`. -/
def bound (f : String → List (String × String) × List (String × String)) :
    Nat → String → Nat
  | 0, _ => 1
  | k + 1, x =>
    1 + ((((f x).1 ++ (f x).2).map (fun pr => bound f k pr.1)).sum)

/-- Termination measure of a BFS state: total remaining tree size over the
fringe, each paper getting depth budget `D + 1 - depth`. -/
def bfsMeasure (f : String → List (String × String) × List (String × String))
    (D : Nat) (s : BfsState) : Nat :=
  (s.fringe.map (fun p => bound f (D + 1 - p.get_path_depth) p.id)).sum

/-!
## Lemmas about the retry client
-/

/-- If the first `d` responses from index `i` on are 429 and response `i + d`
is not, the retry loop returns response `i + d` after sleeping
`w, 2w, …, 2^(d-1) w`. -/
theorem rwrAux_first_success (resp : Nat → Nat) :
    ∀ (d fuel i w : Nat) (s : List Nat) (last : Option Nat),
      d < fuel → (∀ j, j < d → resp (i + j) = 429) → resp (i + d) ≠ 429 →
      rwrAux resp fuel i w s last =
        ⟨some (resp (i + d)), s ++ (List.range d).map (fun j => w * 2 ^ j),
         i + d + 1⟩ := by
  intro d
  induction d with
  | zero =>
    intro fuel i w s last hd _ hne
    match fuel, hd with
    | fuel + 1, _ =>
      simp only [Nat.add_zero] at hne ⊢
      simp only [rwrAux]
      rw [if_pos hne]
      simp
  | succ d ih =>
    intro fuel i w s last hd h429 hne
    match fuel, hd with
    | fuel + 1, hd =>
      have h0 : resp i = 429 := by simpa using h429 0 (Nat.succ_pos d)
      simp only [rwrAux]
      rw [if_neg (by simp [h0])]
      have := ih fuel (i + 1) (w * 2) (s ++ [w]) (some (resp i))
        (by omega)
        (fun j hj => by
          have := h429 (j + 1) (by omega)
          simpa [Nat.add_assoc, Nat.add_comm 1 j] using this)
        (by
          have : i + 1 + d = i + (d + 1) := by omega
          rw [this]; exact hne)
      rw [this]
      have harith : i + 1 + d = i + (d + 1) := by omega
      have hmap : (List.range d).map (fun j => w * 2 * 2 ^ j)
          = (List.range d).map (fun j => w * 2 ^ (j + 1)) := by
        apply List.map_congr_left
        intro a _
        rw [Nat.pow_succ]; ring
      have hlist : (s ++ [w]) ++ (List.range d).map (fun j => w * 2 * 2 ^ j)
          = s ++ (List.range (d + 1)).map (fun j => w * 2 ^ j) := by
        rw [hmap, List.append_assoc, List.singleton_append,
          List.range_succ_eq_map, List.map_cons, List.map_map]
        simp [Function.comp]
      rw [harith, hlist]

/-- If all `fuel` responses from index `i` on are 429, the retry loop
sleeps `fuel` times (`w, 2w, …`) and returns the last 429 response (or the
incoming `last` when no iteration ran). -/
theorem rwrAux_all429 (resp : Nat → Nat) :
    ∀ (fuel i w : Nat) (s : List Nat) (last : Option Nat),
      (∀ j, j < fuel → resp (i + j) = 429) →
      rwrAux resp fuel i w s last =
        ⟨if fuel = 0 then last else some 429,
         s ++ (List.range fuel).map (fun j => w * 2 ^ j), i + fuel⟩ := by
  intro fuel
  induction fuel with
  | zero => intro i w s last _; simp [rwrAux]
  | succ fuel ih =>
    intro i w s last h429
    have h0 : resp i = 429 := by simpa using h429 0 (Nat.succ_pos fuel)
    simp only [rwrAux]
    rw [if_neg (by simp [h0])]
    rw [ih (i + 1) (w * 2) (s ++ [w]) (some (resp i))
      (fun j hj => by
        have := h429 (j + 1) (by omega)
        simpa [Nat.add_assoc, Nat.add_comm 1 j] using this)]
    have hmap : (List.range fuel).map (fun j => w * 2 * 2 ^ j)
        = (List.range fuel).map (fun j => w * 2 ^ (j + 1)) := by
      apply List.map_congr_left
      intro a _
      rw [Nat.pow_succ]; ring
    have hlist : (s ++ [w]) ++ (List.range fuel).map (fun j => w * 2 * 2 ^ j)
        = s ++ (List.range (fuel + 1)).map (fun j => w * 2 ^ j) := by
      rw [hmap, List.append_assoc, List.singleton_append,
        List.range_succ_eq_map, List.map_cons, List.map_map]
      simp [Function.comp]
    rw [hlist]
    have hresp : (if fuel = 0 then some (resp i) else some 429)
        = some 429 := by
      cases fuel <;> simp [h0]
    rw [hresp]
    have : i + 1 + fuel = i + (fuel + 1) := by omega
    rw [this]
    simp

/-- With at least one iteration to run (or a recorded last response), the
retry loop always produces a response. -/
theorem rwrAux_isSome (resp : Nat → Nat) :
    ∀ (fuel i w : Nat) (s : List Nat) (last : Option Nat),
      (last.isSome = true ∨ 1 ≤ fuel) →
      ((rwrAux resp fuel i w s last).response.isSome = true) := by
  intro fuel
  induction fuel with
  | zero =>
    intro i w s last h
    rcases h with h | h
    · simpa [rwrAux] using h
    · omega
  | succ fuel ih =>
    intro i w s last _
    simp only [rwrAux]
    by_cases hr : resp i = 429
    · rw [if_neg (by simp [hr])]
      exact ih (i + 1) (w * 2) (s ++ [w]) (some (resp i)) (Or.inl rfl)
    · rw [if_pos hr]
      rfl

/-- The response sequence 429, 429, 200 used by the spec's retry-client
test scenario (later requests, which never happen, return 0). -/
def respSeq : Nat → Nat := fun i => [429, 429, 200].getD i 0

/-- C5: for every response sequence, `request_with_retries` returns the
first non-429 response if one occurs within `max_retries` attempts, after
sleeping exponentially doubling durations `1, 2, 4, …` (one sleep per 429
received before it); if all `max_retries` responses are 429 it sleeps
after every one of them and returns the last (429) response. -/
theorem C5_retry_spec (resp : Nat → Nat) (n : Nat) :
    (∀ k, k < n → (∀ j, j < k → resp j = 429) → resp k ≠ 429 →
      request_with_retries resp n =
        ⟨some (resp k), (List.range k).map (fun j => 2 ^ j), k + 1⟩) ∧
    (1 ≤ n → (∀ j, j < n → resp j = 429) →
      request_with_retries resp n =
        ⟨some 429, (List.range n).map (fun j => 2 ^ j), n⟩) := by
  constructor
  · intro k hk h429 hne
    have := rwrAux_first_success resp k n 0 1 [] none hk
      (fun j hj => by simpa using h429 j hj) (by simpa using hne)
    rw [request_with_retries, this]
    simp
  · intro hn h429
    have := rwrAux_all429 resp n 0 1 [] none
      (fun j hj => by simpa using h429 j hj)
    rw [request_with_retries, this]
    rw [if_neg (by omega)]
    simp

/-- Witness for C5: on the spec's scenario 429, 429, 200 with the default
`max_retries = 4`, exactly two sleeps of durations 1 then 2 occur and the
200 response is returned (as the third request). -/
theorem C5_retry_spec_witness :
    request_with_retries respSeq 4 = ⟨some 200, [1, 2], 3⟩ :=
  (C5_retry_spec respSeq 4).1 2 (by decide) (by decide) (by decide)

/-- C9: called with `max_retries = 0` the loop body never runs, no request
is sent, and the `return response` line fails because `response` was never
bound (modelled by a `none` response with a request count of 0); with
`max_retries ≥ 1` a response is always returned, so the contract
implicitly requires at least one attempt. -/
theorem C9_zero_attempts (resp : Nat → Nat) :
    request_with_retries resp 0 = ⟨none, [], 0⟩ ∧
    (∀ n, 1 ≤ n → (request_with_retries resp n).response.isSome = true) := by
  constructor
  · rfl
  · intro n hn
    exact rwrAux_isSome resp n 0 1 [] none (Or.inr hn)

/-- Witness for C9: with an all-200 server, zero attempts yield the unbound
result while a single attempt yields a response. -/
theorem C9_zero_attempts_witness :
    request_with_retries (fun _ => 200) 0 = ⟨none, [], 0⟩ ∧
    (request_with_retries (fun _ => 200) 1).response.isSome = true :=
  ⟨(C9_zero_attempts (fun _ => 200)).1,
   (C9_zero_attempts (fun _ => 200)).2 1 (by decide)⟩

/-- C10: when all `max_retries ≥ 1` responses are rate-limited,
`request_with_retries` sleeps exactly `max_retries` times with durations
`2^0, …, 2^(max_retries - 1)` — including one final sleep after the last
response, though no further attempt follows — and returns that last 429
response after `max_retries` requests. -/
theorem C10_retry_all_rate_limited (resp : Nat → Nat) (n : Nat)
    (hn : 1 ≤ n) (h429 : ∀ j, j < n → resp j = 429) :
    request_with_retries resp n =
      ⟨some 429, (List.range n).map (fun j => 2 ^ j), n⟩ := by
  have := rwrAux_all429 resp n 0 1 [] none
    (fun j hj => by simpa using h429 j hj)
  rw [request_with_retries, this]
  rw [if_neg (by omega)]
  simp

/-- Witness for C10: an always-429 server with the default `max_retries = 4`
produces the four sleeps 1, 2, 4, 8 and a final 429 after 4 requests. -/
theorem C10_retry_all_rate_limited_witness :
    request_with_retries (fun _ => 429) 4 = ⟨some 429, [1, 2, 4, 8], 4⟩ :=
  C10_retry_all_rate_limited (fun _ => 429) 4 (by decide) (fun j _ => rfl)

/-!
## Lemmas about the match-check pass
-/

theorem checkEditor_nil (ids : List String) (cur : Option (List Paper)) :
    checkEditor [] ids cur = cur := rfl

theorem checkEditor_cons (p : Paper) (ps : List Paper) (ids : List String)
    (cur : Option (List Paper)) :
    checkEditor (p :: ps) ids cur =
      checkEditor ps ids
        (if p.id ∈ ids then some (cur.getD [] ++ [p]) else cur) := rfl

/-- Closed form of the per-editor loop: the editor's entry is left alone
when no paper in the batch matches, and otherwise becomes the old entry
(defaulting to `[]`) with the matching papers appended in batch order. -/
theorem checkEditor_eq (ps : List Paper) (ids : List String)
    (cur : Option (List Paper)) :
    checkEditor ps ids cur =
      if (ps.filter (fun p => decide (p.id ∈ ids))).isEmpty = true then cur
      else some (cur.getD [] ++ ps.filter (fun p => decide (p.id ∈ ids))) := by
  induction ps generalizing cur with
  | nil => simp [checkEditor_nil]
  | cons p rest ih =>
    rw [checkEditor_cons]
    by_cases hp : p.id ∈ ids
    · rw [if_pos hp, ih]
      have hf : (p :: rest).filter (fun p => decide (p.id ∈ ids))
          = p :: rest.filter (fun p => decide (p.id ∈ ids)) := by
        simp [List.filter_cons, hp]
      rw [hf]
      by_cases he : (rest.filter (fun p => decide (p.id ∈ ids))).isEmpty = true
      · rw [if_pos he, if_neg (by simp)]
        have : rest.filter (fun p => decide (p.id ∈ ids)) = [] :=
          List.isEmpty_iff.mp he
        simp [this]
      · rw [if_neg he, if_neg (by simp)]
        simp
    · rw [if_neg hp, ih]
      have hf : (p :: rest).filter (fun p => decide (p.id ∈ ids))
          = rest.filter (fun p => decide (p.id ∈ ids)) := by
        simp [List.filter_cons, hp]
      rw [hf]

/-- An editor name that is not a roster key keeps its findings entry. -/
theorem check_papers_not_key (ps : List Paper) :
    ∀ (roster : List (String × List String))
      (f : String → Option (List Paper)) (e : String),
      e ∉ roster.map Prod.fst → check_papers ps roster f e = f e := by
  intro roster
  induction roster with
  | nil => intro f e _; rfl
  | cons pr rest ih =>
    intro f e he
    rw [check_papers]
    have h1 : e ∉ rest.map Prod.fst := by
      intro hc; exact he (by simp [hc])
    have h2 : e ≠ pr.1 := by
      intro hc; exact he (by simp [hc])
    rw [ih _ e h1]
    simp [h2]

/-- The findings entry of a roster editor after one `check_papers` call is
exactly the per-editor loop applied to that editor's old entry. -/
theorem check_papers_key (ps : List Paper) :
    ∀ (roster : List (String × List String))
      (f : String → Option (List Paper)) (e : String) (ids : List String),
      (roster.map Prod.fst).Nodup → (e, ids) ∈ roster →
      check_papers ps roster f e = checkEditor ps ids (f e) := by
  intro roster
  induction roster with
  | nil => intro f e ids _ hmem; cases hmem
  | cons pr rest ih =>
    intro f e ids hnd hmem
    have hmap : List.map Prod.fst (pr :: rest) = pr.1 :: rest.map Prod.fst := by
      simp
    rw [hmap] at hnd
    have hnd' : (rest.map Prod.fst).Nodup := (List.nodup_cons.mp hnd).2
    have hout : pr.1 ∉ rest.map Prod.fst := (List.nodup_cons.mp hnd).1
    rw [check_papers]
    rcases List.mem_cons.mp hmem with hh | ht
    · have he : e = pr.1 := by rw [← hh]
      have hids : ids = pr.2 := by rw [← hh]
      have hnotin : e ∉ rest.map Prod.fst := he ▸ hout
      rw [check_papers_not_key ps rest _ e hnotin]
      simp [he, hids]
    · have he' : e ∈ rest.map Prod.fst := by
        exact List.mem_map.mpr ⟨(e, ids), ht, rfl⟩
      have hne : e ≠ pr.1 := by
        intro hc; exact hout (hc ▸ he')
      rw [ih _ e ids hnd' ht]
      simp [hne]

/-- Every paper in a findings entry after `check_papers` was already in
that entry before the call or belongs to the checked batch. -/
theorem check_papers_mem (ps : List Paper) :
    ∀ (roster : List (String × List String))
      (f : String → Option (List Paper)) (e : String)
      (l : List Paper) (p : Paper),
      check_papers ps roster f e = some l → p ∈ l →
      (∃ l0, f e = some l0 ∧ p ∈ l0) ∨ p ∈ ps := by
  have hed : ∀ (ids : List String) (cur : Option (List Paper))
      (l : List Paper) (p : Paper),
      checkEditor ps ids cur = some l → p ∈ l →
      (∃ l0, cur = some l0 ∧ p ∈ l0) ∨ p ∈ ps := by
    intro ids cur l p heq hp
    rw [checkEditor_eq] at heq
    by_cases he : (ps.filter (fun p => decide (p.id ∈ ids))).isEmpty = true
    · rw [if_pos he] at heq
      exact Or.inl ⟨l, heq, hp⟩
    · rw [if_neg he] at heq
      have hl : l = cur.getD [] ++ ps.filter (fun p => decide (p.id ∈ ids)) :=
        (Option.some.injEq _ _ ▸ heq).symm
      rw [hl] at hp
      rcases List.mem_append.mp hp with h1 | h2
      · cases cur with
        | none => simp at h1
        | some l0 => exact Or.inl ⟨l0, rfl, by simpa using h1⟩
      · exact Or.inr (List.mem_filter.mp h2).1
  intro roster
  induction roster with
  | nil =>
    intro f e l p heq hp
    exact Or.inl ⟨l, heq, hp⟩
  | cons pr rest ih =>
    intro f e l p heq hp
    rw [check_papers] at heq
    rcases ih _ e l p heq hp with ⟨l0, hl0, hpl0⟩ | hps
    · by_cases he : e = pr.1
      · rw [if_pos he] at hl0
        rcases hed pr.2 (f pr.1) l0 p hl0 hpl0 with ⟨l1, hl1, hpl1⟩ | hps
        · exact Or.inl ⟨l1, he ▸ hl1, hpl1⟩
        · exact Or.inr hps
      · rw [if_neg he] at hl0
        exact Or.inl ⟨l0, hl0, hpl0⟩
    · exact Or.inr hps

theorem countP_filter_of_imp {α : Type} (l : List α) (pr q : α → Bool)
    (h : ∀ a, pr a = true → q a = true) :
    (l.filter q).countP pr = l.countP pr := by
  rw [List.countP_filter]
  apply List.countP_congr
  intro a _
  constructor
  · intro ha
    have ha' : pr a = true ∧ q a = true := by simpa using ha
    exact ha'.1
  · intro ha; simp [ha, h a ha]

theorem countP_filter_of_not {α : Type} (l : List α) (pr q : α → Bool)
    (h : ∀ a, pr a = true → q a = false) :
    (l.filter q).countP pr = 0 := by
  rw [List.countP_filter]
  rw [List.countP_eq_zero]
  intro a _ hc
  have h2 : pr a = true ∧ q a = true := by simpa using hc
  have := h a h2.1
  rw [this] at h2
  exact absurd h2.2 (by simp)

/-- Effect of one `check_papers` call on the number of papers with a given
id in a roster editor's findings entry: it grows by the number of
occurrences of that id in the batch if the editor owns the id, and is
unchanged otherwise. -/
theorem check_papers_countP (ps : List Paper)
    (roster : List (String × List String)) (f : String → Option (List Paper))
    (e : String) (ids : List String) (x : String)
    (hnd : (roster.map Prod.fst).Nodup) (hmem : (e, ids) ∈ roster) :
    ((check_papers ps roster f e).getD []).countP (fun q => q.id == x) =
      ((f e).getD []).countP (fun q => q.id == x) +
        (if x ∈ ids then ps.countP (fun q => q.id == x) else 0) := by
  rw [check_papers_key ps roster f e ids hnd hmem, checkEditor_eq]
  by_cases he : (ps.filter (fun p => decide (p.id ∈ ids))).isEmpty = true
  · rw [if_pos he]
    by_cases hx : x ∈ ids
    · rw [if_pos hx]
      have himp : ∀ a : Paper, (a.id == x) = true →
          (decide (a.id ∈ ids)) = true := by
        intro a ha
        have : a.id = x := by simpa using ha
        simp [this, hx]
      have h0 : ps.countP (fun q => q.id == x) = 0 := by
        rw [← countP_filter_of_imp ps (fun q => q.id == x)
          (fun p => decide (p.id ∈ ids)) himp]
        rw [List.isEmpty_iff.mp he]
        rfl
      rw [h0]
      omega
    · rw [if_neg hx]
      omega
  · rw [if_neg he]
    simp only [Option.getD_some, List.countP_append]
    by_cases hx : x ∈ ids
    · rw [if_pos hx]
      have himp : ∀ a : Paper, (a.id == x) = true →
          (decide (a.id ∈ ids)) = true := by
        intro a ha
        have : a.id = x := by simpa using ha
        simp [this, hx]
      rw [countP_filter_of_imp ps (fun q => q.id == x)
        (fun p => decide (p.id ∈ ids)) himp]
    · rw [if_neg hx]
      have hnot : ∀ a : Paper, (a.id == x) = true →
          (decide (a.id ∈ ids)) = false := by
        intro a ha
        have : a.id = x := by simpa using ha
        simp [this, hx]
      rw [countP_filter_of_not ps (fun q => q.id == x)
        (fun p => decide (p.id ∈ ids)) hnot]

/-- C4: one `check_papers` call leaves a roster editor's entry alone when
no batch paper matches its id set, and otherwise appends exactly the
matching batch papers (in batch order) to the old entry, creating it if
absent; per id, the count grows by the batch occurrences for owning
editors and stays for the rest, and non-roster editors are untouched — so
nothing is ever removed. -/
theorem C4_check_papers_spec (ps : List Paper)
    (roster : List (String × List String))
    (f : String → Option (List Paper))
    (hnd : (roster.map Prod.fst).Nodup) :
    (∀ e ids, (e, ids) ∈ roster →
      (ps.filter (fun p => decide (p.id ∈ ids)) = [] →
          check_papers ps roster f e = f e) ∧
      (ps.filter (fun p => decide (p.id ∈ ids)) ≠ [] →
          check_papers ps roster f e =
            some ((f e).getD [] ++
              ps.filter (fun p => decide (p.id ∈ ids)))) ∧
      (∀ x : String,
          ((check_papers ps roster f e).getD []).countP (fun q => q.id == x)
            = ((f e).getD []).countP (fun q => q.id == x) +
              (if x ∈ ids then ps.countP (fun q => q.id == x) else 0))) ∧
    (∀ e, e ∉ roster.map Prod.fst → check_papers ps roster f e = f e) := by
  refine ⟨?_, fun e he => check_papers_not_key ps roster f e he⟩
  intro e ids hmem
  refine ⟨?_, ?_, fun x => check_papers_countP ps roster f e ids x hnd hmem⟩
  · intro hempty
    rw [check_papers_key ps roster f e ids hnd hmem, checkEditor_eq]
    rw [if_pos (by simp [hempty])]
  · intro hne
    rw [check_papers_key ps roster f e ids hnd hmem, checkEditor_eq]
    rw [if_neg (by simpa using hne)]

/-- The singleton batch and one-editor roster used as concrete instances:
editor E owns paper id X, and the batch holds the seed paper with id X. -/
def px : Paper := Paper.mk "X" "t" none none

def roster0 : List (String × List String) := [("E", ["X"])]

/-- Witness for C4: on the one-editor roster, the matching batch `[px]`
turns E's absent entry into `[px]` (count 1 for id X), and a non-roster
editor's entry stays absent. -/
theorem C4_check_papers_spec_witness :
    ((check_papers [px] roster0 (fun _ => none) "E").getD []).countP
        (fun q => q.id == "X") = 1 ∧
    check_papers [px] roster0 (fun _ => none) "Z" = none :=
  ⟨by
      have h := (((C4_check_papers_spec [px] roster0 (fun _ => none)
        (by decide)).1 "E" ["X"] (by decide)).2.2) "X"
      simpa using h,
   (C4_check_papers_spec [px] roster0 (fun _ => none) (by decide)).2 "Z"
     (by decide)⟩

/-- C3 counterexample: editor E owns id X and the batch `[px]` has id X,
yet after two `check_papers` calls with that same batch `findings[E]`
holds the paper twice, not once — the match-check pass is not idempotent
across repeated calls. -/
theorem C3_cex_double_append :
    repeatCheck [px] roster0 2 (fun _ => none) "E" = some [px, px] ∧
    ((repeatCheck [px] roster0 2 (fun _ => none) "E").getD []).countP
        (fun q => q.id == "X") = 2 :=
  ⟨rfl, rfl⟩

/-- C3 amended: repeated `check_papers` calls with the same batch are not
idempotent; after `n` calls, a roster editor's findings entry contains the
papers with an owned id exactly `n` times their number of occurrences in
the batch (one append per call per occurrence). -/
theorem C3_repeat_check_additive (ps : List Paper)
    (roster : List (String × List String)) (n : Nat)
    (e : String) (ids : List String) (x : String)
    (hnd : (roster.map Prod.fst).Nodup) (hmem : (e, ids) ∈ roster)
    (hx : x ∈ ids) :
    ∀ f : String → Option (List Paper),
      ((repeatCheck ps roster n f e).getD []).countP (fun q => q.id == x) =
        ((f e).getD []).countP (fun q => q.id == x) +
          n * ps.countP (fun q => q.id == x) := by
  induction n with
  | zero => intro f; simp [repeatCheck]
  | succ n ih =>
    intro f
    rw [repeatCheck, ih (check_papers ps roster f),
      check_papers_countP ps roster f e ids x hnd hmem, if_pos hx]
    ring

/-- Witness for C3's amended claim: three calls with the matching singleton
batch leave three copies of id X in E's entry. -/
theorem C3_repeat_check_additive_witness :
    ((repeatCheck [px] roster0 3 (fun _ => none) "E").getD []).countP
        (fun q => q.id == "X") = 3 := by
  have h := C3_repeat_check_additive [px] roster0 3 "E" ["X"] "X"
    (by decide) (by decide) (by decide) (fun _ => none)
  simpa using h

/-- C6: on any non-success response, or a response lacking both the
citations and references fields, `get_citing_and_referenced_papers`
returns two empty lists rather than failing; a non-empty citing
(resp. referenced) list can only come from a status-200 response whose
citations (resp. references) field is present. -/
theorem C6_neighbors_on_failure (r : S2Response) :
    (r.status_code ≠ 200 → get_citing_and_referenced_papers r = ([], [])) ∧
    (r.citations = none → r.references = none →
        get_citing_and_referenced_papers r = ([], [])) ∧
    ((get_citing_and_referenced_papers r).1 ≠ [] →
        r.status_code = 200 ∧ r.citations ≠ none) ∧
    ((get_citing_and_referenced_papers r).2 ≠ [] →
        r.status_code = 200 ∧ r.references ≠ none) := by
  by_cases h : r.status_code < 400 ∧ r.status_code = 200
  · refine ⟨fun hne => absurd h.2 hne, ?_, ?_, ?_⟩
    · intro hc hr
      rw [get_citing_and_referenced_papers, if_pos h, hc, hr]
      rfl
    · intro h1
      refine ⟨h.2, ?_⟩
      intro hc
      rw [get_citing_and_referenced_papers, if_pos h, hc] at h1
      exact h1 rfl
    · intro h2
      refine ⟨h.2, ?_⟩
      intro hr
      rw [get_citing_and_referenced_papers, if_pos h, hr] at h2
      exact h2 rfl
  · have hempty : get_citing_and_referenced_papers r = ([], []) := by
      rw [get_citing_and_referenced_papers, if_neg h]
    refine ⟨fun _ => hempty, fun _ _ => hempty, ?_, ?_⟩
    · intro h1; rw [hempty] at h1; exact absurd rfl h1
    · intro h2; rw [hempty] at h2; exact absurd rfl h2

/-- Witness for C6: a 404 response yields two empty lists, and a 200
response with a citations entry is a success whose field is present. -/
theorem C6_neighbors_on_failure_witness :
    get_citing_and_referenced_papers ⟨404, some [("a", "b")], none⟩ = ([], []) ∧
    ((⟨200, some [("a", "b")], none⟩ : S2Response).status_code = 200 ∧
      (⟨200, some [("a", "b")], none⟩ : S2Response).citations ≠ none) :=
  ⟨(C6_neighbors_on_failure ⟨404, some [("a", "b")], none⟩).1 (by decide),
   (C6_neighbors_on_failure ⟨200, some [("a", "b")], none⟩).2.2.1
     (by exact List.cons_ne_nil _ _)⟩

/-!
## Lemmas about neighbor collection and the BFS step
-/

theorem collectNew_forall (make : String × String → Paper) (P : Paper → Prop) :
    ∀ (pairs : List (String × String)) (found : List String),
      (∀ pr ∈ pairs, P (make pr)) →
      ∀ p ∈ (collectNew make pairs found).1, P p := by
  intro pairs
  induction pairs with
  | nil => intro found _ p hp; simp [collectNew] at hp
  | cons pr rest ih =>
    intro found hP p hp
    rw [collectNew] at hp
    by_cases hin : pr.1 ∈ found
    · rw [if_pos hin] at hp
      exact ih found (fun q hq => hP q (List.mem_cons_of_mem pr hq)) p hp
    · rw [if_neg hin] at hp
      rcases List.mem_cons.mp hp with hh | ht
      · rw [hh]; exact hP pr (List.mem_cons_self pr rest)
      · exact ih (pr.1 :: found) (fun q hq => hP q (List.mem_cons_of_mem pr hq))
          p ht

theorem collectNew_ids_sublist (make : String × String → Paper)
    (hid : ∀ pr, (make pr).id = pr.1) :
    ∀ (pairs : List (String × String)) (found : List String),
      ((collectNew make pairs found).1.map Paper.id).Sublist
        (pairs.map Prod.fst) := by
  intro pairs
  induction pairs with
  | nil => intro found; simp [collectNew]
  | cons pr rest ih =>
    intro found
    rw [collectNew]
    by_cases hin : pr.1 ∈ found
    · rw [if_pos hin]
      exact (ih found).cons pr.1
    · rw [if_neg hin]
      simp only [List.map_cons, hid pr]
      exact (ih (pr.1 :: found)).cons₂ pr.1

theorem collectNew_found_sub (make : String × String → Paper) :
    ∀ (pairs : List (String × String)) (found : List String),
      ∀ x ∈ found, x ∈ (collectNew make pairs found).2 := by
  intro pairs
  induction pairs with
  | nil => intro found x hx; simpa [collectNew] using hx
  | cons pr rest ih =>
    intro found x hx
    rw [collectNew]
    by_cases hin : pr.1 ∈ found
    · rw [if_pos hin]; exact ih found x hx
    · rw [if_neg hin]
      exact ih (pr.1 :: found) x (List.mem_cons_of_mem pr.1 hx)

theorem collectNew_found_iff (make : String × String → Paper)
    (hid : ∀ pr, (make pr).id = pr.1) :
    ∀ (pairs : List (String × String)) (found : List String) (x : String),
      x ∈ (collectNew make pairs found).2 ↔
        x ∈ found ∨ x ∈ (collectNew make pairs found).1.map Paper.id := by
  intro pairs
  induction pairs with
  | nil => intro found x; simp [collectNew]
  | cons pr rest ih =>
    intro found x
    rw [collectNew]
    by_cases hin : pr.1 ∈ found
    · rw [if_pos hin]; exact ih found x
    · rw [if_neg hin]
      simp only [List.map_cons, hid pr, List.mem_cons]
      rw [ih (pr.1 :: found) x]
      simp only [List.mem_cons]
      tauto

theorem collectNew_fresh (make : String × String → Paper)
    (hid : ∀ pr, (make pr).id = pr.1) :
    ∀ (pairs : List (String × String)) (found : List String) (p : Paper),
      p ∈ (collectNew make pairs found).1 → p.id ∉ found := by
  intro pairs
  induction pairs with
  | nil => intro found p hp; simp [collectNew] at hp
  | cons pr rest ih =>
    intro found p hp
    rw [collectNew] at hp
    by_cases hin : pr.1 ∈ found
    · rw [if_pos hin] at hp
      exact ih found p hp
    · rw [if_neg hin] at hp
      rcases List.mem_cons.mp hp with hh | ht
      · rw [hh, hid pr]; exact hin
      · intro hc
        exact ih (pr.1 :: found) p ht (List.mem_cons_of_mem pr.1 hc)

theorem collectNew_ids_nodup (make : String × String → Paper)
    (hid : ∀ pr, (make pr).id = pr.1) :
    ∀ (pairs : List (String × String)) (found : List String),
      ((collectNew make pairs found).1.map Paper.id).Nodup := by
  intro pairs
  induction pairs with
  | nil => intro found; simp [collectNew]
  | cons pr rest ih =>
    intro found
    rw [collectNew]
    by_cases hin : pr.1 ∈ found
    · rw [if_pos hin]; exact ih found
    · rw [if_neg hin]
      simp only [List.map_cons, hid pr]
      rw [List.nodup_cons]
      refine ⟨?_, ih (pr.1 :: found)⟩
      intro hc
      rcases List.mem_map.mp hc with ⟨q, hq, hqid⟩
      have := collectNew_fresh make hid rest (pr.1 :: found) q hq
      rw [hqid] at this
      exact this (List.mem_cons_self pr.1 found)

theorem collectNew_found_nodup (make : String × String → Paper) :
    ∀ (pairs : List (String × String)) (found : List String),
      found.Nodup → (collectNew make pairs found).2.Nodup := by
  intro pairs
  induction pairs with
  | nil => intro found h; simpa [collectNew] using h
  | cons pr rest ih =>
    intro found h
    rw [collectNew]
    by_cases hin : pr.1 ∈ found
    · rw [if_pos hin]; exact ih found h
    · rw [if_neg hin]
      exact ih (pr.1 :: found) (List.nodup_cons.mpr ⟨hin, h⟩)

/-- Everything one BFS iteration does to the state, given that it ran
(the popped paper was within the depth cutoff): the batch of new papers is
appended to the fringe; each new paper sits one provenance hop below the
popped paper, has exactly one provenance parent, and carries an id that
was unseen before and is recorded in the found set in this same step;
no id is recorded twice; and the findings map is updated by exactly one
match-check pass over the batch. -/
theorem bfsStep_spec
    (f : String → List (String × String) × List (String × String))
    (roster : List (String × List String)) (D : Nat) (s s' : BfsState)
    (p : Paper) (rest : List Paper)
    (hfr : s.fringe = p :: rest) (hstep : bfsStep f roster D s = some s') :
    p.get_path_depth ≤ D ∧
    ∃ new : List Paper,
      s'.fringe = rest ++ new ∧
      (∀ q ∈ new, q.get_path_depth = 1 + p.get_path_depth) ∧
      (∀ q ∈ new, q.cited_paper = none ∨ q.referenced_by_paper = none) ∧
      (∀ q ∈ new, q.id ∉ s.found_ids) ∧
      (new.map Paper.id).Nodup ∧
      (∀ x, x ∈ s'.found_ids ↔ x ∈ s.found_ids ∨ x ∈ new.map Paper.id) ∧
      (s.found_ids.Nodup → s'.found_ids.Nodup) ∧
      (new.map Paper.id).Sublist
        ((f p.id).1.map Prod.fst ++ (f p.id).2.map Prod.fst) ∧
      s'.findings = check_papers new roster s.findings := by
  rw [bfsStep, hfr] at hstep
  dsimp only at hstep
  by_cases hd : p.get_path_depth > D
  · rw [if_pos hd] at hstep; cases hstep
  · rw [if_neg hd] at hstep
    have hs' : s' = ⟨rest ++
        ((collectNew (fun pr => Paper.mk pr.1 pr.2 (some p) none)
            (f p.id).1 s.found_ids).1 ++
          (collectNew (fun pr => Paper.mk pr.1 pr.2 none (some p))
            (f p.id).2
            (collectNew (fun pr => Paper.mk pr.1 pr.2 (some p) none)
              (f p.id).1 s.found_ids).2).1),
        (collectNew (fun pr => Paper.mk pr.1 pr.2 none (some p)) (f p.id).2
          (collectNew (fun pr => Paper.mk pr.1 pr.2 (some p) none)
            (f p.id).1 s.found_ids).2).2,
        check_papers
          ((collectNew (fun pr => Paper.mk pr.1 pr.2 (some p) none)
              (f p.id).1 s.found_ids).1 ++
            (collectNew (fun pr => Paper.mk pr.1 pr.2 none (some p))
              (f p.id).2
              (collectNew (fun pr => Paper.mk pr.1 pr.2 (some p) none)
                (f p.id).1 s.found_ids).2).1)
          roster s.findings⟩ := by
      exact (Option.some.injEq _ _ ▸ hstep).symm
    set mkC := fun pr : String × String => Paper.mk pr.1 pr.2 (some p) none
      with hmkC
    set mkR := fun pr : String × String => Paper.mk pr.1 pr.2 none (some p)
      with hmkR
    have hidC : ∀ pr, (mkC pr).id = pr.1 := fun pr => rfl
    have hidR : ∀ pr, (mkR pr).id = pr.1 := fun pr => rfl
    set resC := collectNew mkC (f p.id).1 s.found_ids with hresC
    set resR := collectNew mkR (f p.id).2 resC.2 with hresR
    refine ⟨by omega, resC.1 ++ resR.1, ?_, ?_, ?_, ?_, ?_, ?_, ?_, ?_, ?_⟩
    · rw [hs']
    · intro q hq
      rcases List.mem_append.mp hq with h1 | h2
      · exact collectNew_forall mkC
          (fun q => q.get_path_depth = 1 + p.get_path_depth)
          (f p.id).1 s.found_ids (fun pr _ => rfl) q h1
      · exact collectNew_forall mkR
          (fun q => q.get_path_depth = 1 + p.get_path_depth)
          (f p.id).2 resC.2 (fun pr _ => rfl) q h2
    · intro q hq
      rcases List.mem_append.mp hq with h1 | h2
      · exact collectNew_forall mkC
          (fun q => q.cited_paper = none ∨ q.referenced_by_paper = none)
          (f p.id).1 s.found_ids (fun pr _ => Or.inr rfl) q h1
      · exact collectNew_forall mkR
          (fun q => q.cited_paper = none ∨ q.referenced_by_paper = none)
          (f p.id).2 resC.2 (fun pr _ => Or.inl rfl) q h2
    · intro q hq
      rcases List.mem_append.mp hq with h1 | h2
      · exact collectNew_fresh mkC hidC (f p.id).1 s.found_ids q h1
      · intro hc
        exact collectNew_fresh mkR hidR (f p.id).2 resC.2 q h2
          (collectNew_found_sub mkC (f p.id).1 s.found_ids q.id hc)
    · rw [List.map_append]
      refine List.Nodup.append (collectNew_ids_nodup mkC hidC _ _)
        (collectNew_ids_nodup mkR hidR _ _) ?_
      intro x hx1 hx2
      rcases List.mem_map.mp hx2 with ⟨q, hq, hqid⟩
      have hfresh := collectNew_fresh mkR hidR (f p.id).2 resC.2 q hq
      rw [hqid] at hfresh
      exact hfresh
        ((collectNew_found_iff mkC hidC (f p.id).1 s.found_ids x).mpr
          (Or.inr hx1))
    · intro x
      rw [hs']
      simp only [List.map_append, List.mem_append]
      rw [collectNew_found_iff mkR hidR (f p.id).2 resC.2 x,
        collectNew_found_iff mkC hidC (f p.id).1 s.found_ids x]
      tauto
    · intro hnd
      rw [hs']
      exact collectNew_found_nodup mkR (f p.id).2 resC.2
        (collectNew_found_nodup mkC (f p.id).1 s.found_ids hnd)
    · rw [List.map_append]
      exact List.Sublist.append
        (collectNew_ids_sublist mkC hidC (f p.id).1 s.found_ids)
        (collectNew_ids_sublist mkR hidR (f p.id).2 resC.2)
    · rw [hs']

theorem bfsStep_nil (f : String → List (String × String) × List (String × String))
    (roster : List (String × List String)) (D : Nat) (s : BfsState)
    (h : s.fringe = []) : bfsStep f roster D s = none := by
  rw [bfsStep, h]

/-- The hard cutoff: when the popped paper's depth exceeds `D` the loop
exits at once. -/
theorem bfsStep_cutoff (f : String → List (String × String) × List (String × String))
    (roster : List (String × List String)) (D : Nat) (s : BfsState)
    (p : Paper) (rest : List Paper)
    (h : s.fringe = p :: rest) (hd : p.get_path_depth > D) :
    bfsStep f roster D s = none := by
  rw [bfsStep, h]
  dsimp only
  rw [if_pos hd]

/-- A popped paper within the cutoff is expanded (the loop keeps going). -/
theorem bfsStep_expands (f : String → List (String × String) × List (String × String))
    (roster : List (String × List String)) (D : Nat) (s : BfsState)
    (p : Paper) (rest : List Paper)
    (h : s.fringe = p :: rest) (hd : p.get_path_depth ≤ D) :
    (bfsStep f roster D s).isSome = true := by
  rw [bfsStep, h]
  dsimp only
  rw [if_neg (by omega)]
  rfl

/-- When the loop exits, the final state is the current state, untouched:
no remaining fringe paper is expanded and no findings entry changes. -/
theorem bfsRun_exit (f : String → List (String × String) × List (String × String))
    (roster : List (String × List String)) (D : Nat) (fuel : Nat)
    (s : BfsState) (h : bfsStep f roster D s = none) :
    bfsRun f roster D (fuel + 1) s = some s := by
  rw [bfsRun, h]

/-- Each BFS iteration strictly decreases the termination measure: the
popped paper's budgeted tree size covers 1 plus the budgets of all its
neighbors, of which the kept batch is a sublist. -/
theorem bfsStep_measure (f : String → List (String × String) × List (String × String))
    (roster : List (String × List String)) (D : Nat) (s s' : BfsState)
    (hstep : bfsStep f roster D s = some s') :
    bfsMeasure f D s' < bfsMeasure f D s := by
  cases hfr : s.fringe with
  | nil => rw [bfsStep_nil f roster D s hfr] at hstep; cases hstep
  | cons p rest =>
    obtain ⟨hd, new, hfr', hdep, -, -, -, -, -, hsub, -⟩ :=
      bfsStep_spec f roster D s s' p rest hfr hstep
    have hDd : D + 1 - p.get_path_depth = (D - p.get_path_depth) + 1 := by
      omega
    have hnew : new.map (fun q => bound f (D + 1 - q.get_path_depth) q.id)
        = (new.map Paper.id).map (bound f (D - p.get_path_depth)) := by
      rw [List.map_map]
      apply List.map_congr_left
      intro q hq
      have : q.get_path_depth = 1 + p.get_path_depth := hdep q hq
      simp only [Function.comp]
      rw [this]
      congr 1
      omega
    have hsum_new :
        ((new.map Paper.id).map (bound f (D - p.get_path_depth))).sum ≤
          ((((f p.id).1.map Prod.fst ++ (f p.id).2.map Prod.fst)).map
            (bound f (D - p.get_path_depth))).sum := by
      refine List.Sublist.sum_le_sum (hsub.map _) ?_
      intro a _
      exact Nat.zero_le a
    have hbound : bound f (D + 1 - p.get_path_depth) p.id =
        1 + ((((f p.id).1.map Prod.fst ++ (f p.id).2.map Prod.fst)).map
          (bound f (D - p.get_path_depth))).sum := by
      rw [hDd, bound]
      congr 1
      rw [← List.map_append, List.map_map]
      rfl
    rw [bfsMeasure, hfr', List.map_append, List.sum_append, hnew]
    rw [bfsMeasure, hfr, List.map_cons, List.sum_cons, hbound]
    omega

/-- With fuel exceeding the measure, the BFS loop reaches a normal exit. -/
theorem bfsRun_term (f : String → List (String × String) × List (String × String))
    (roster : List (String × List String)) (D : Nat) :
    ∀ (fuel : Nat) (s : BfsState), bfsMeasure f D s < fuel →
      (bfsRun f roster D fuel s).isSome = true := by
  intro fuel
  induction fuel with
  | zero => intro s h; omega
  | succ n ih =>
    intro s h
    cases hstep : bfsStep f roster D s with
    | none => rw [bfsRun, hstep]; rfl
    | some s' =>
      rw [bfsRun, hstep]
      refine ih s' ?_
      have := bfsStep_measure f roster D s s' hstep
      omega

/-- A paper never carries both provenance parents: being a seed (neither
set) or having exactly one of `cited_paper` / `referenced_by_paper` set. -/
def oneParent (p : Paper) : Prop :=
  p.cited_paper = none ∨ p.referenced_by_paper = none

/-- The BFS loop invariant: the visited set has no duplicate ids, the
fringe has no duplicate ids, every fringe paper's id is already visited,
and every paper in the fringe or in a findings entry has at most one
provenance parent. -/
def BfsInv (s : BfsState) : Prop :=
  s.found_ids.Nodup ∧
  (s.fringe.map Paper.id).Nodup ∧
  (∀ p ∈ s.fringe, p.id ∈ s.found_ids) ∧
  (∀ p ∈ s.fringe, oneParent p) ∧
  (∀ e l, s.findings e = some l → ∀ p ∈ l, oneParent p)

/-- One BFS iteration preserves the loop invariant, and the visited set
only grows. -/
theorem bfsStep_inv (f : String → List (String × String) × List (String × String))
    (roster : List (String × List String)) (D : Nat) (s s' : BfsState)
    (hinv : BfsInv s) (hstep : bfsStep f roster D s = some s') :
    BfsInv s' ∧ (∀ x ∈ s.found_ids, x ∈ s'.found_ids) := by
  obtain ⟨hfnd, hfrn, hsub, hone, hfd⟩ := hinv
  cases hfr : s.fringe with
  | nil => rw [bfsStep_nil f roster D s hfr] at hstep; cases hstep
  | cons p rest =>
    obtain ⟨hd, new, hfr', hdep, honeN, hfresh, hnodupN, hiff, hndpres, -,
      hfind⟩ := bfsStep_spec f roster D s s' p rest hfr hstep
    rw [hfr] at hfrn hsub hone
    have hrestn : (rest.map Paper.id).Nodup := by
      rw [List.map_cons] at hfrn
      exact (List.nodup_cons.mp hfrn).2
    refine ⟨⟨hndpres hfnd, ?_, ?_, ?_, ?_⟩, fun x hx => (hiff x).mpr (Or.inl hx)⟩
    · rw [hfr', List.map_append]
      refine List.Nodup.append hrestn hnodupN ?_
      intro x hx1 hx2
      rcases List.mem_map.mp hx1 with ⟨q, hq, hqid⟩
      rcases List.mem_map.mp hx2 with ⟨q', hq', hqid'⟩
      have hxin : x ∈ s.found_ids := by
        rw [← hqid]
        exact hsub q (List.mem_cons_of_mem p hq)
      have := hfresh q' hq'
      rw [hqid'] at this
      exact this hxin
    · intro q hq
      rw [hfr'] at hq
      rcases List.mem_append.mp hq with h1 | h2
      · exact (hiff q.id).mpr (Or.inl (hsub q (List.mem_cons_of_mem p h1)))
      · exact (hiff q.id).mpr (Or.inr (List.mem_map.mpr ⟨q, h2, rfl⟩))
    · intro q hq
      rw [hfr'] at hq
      rcases List.mem_append.mp hq with h1 | h2
      · exact hone q (List.mem_cons_of_mem p h1)
      · exact honeN q h2
    · intro e l hl q hq
      rw [hfind] at hl
      rcases check_papers_mem new roster s.findings e l q hl hq with
        ⟨l0, hl0, hql0⟩ | hnew
      · exact hfd e l0 hl0 q hql0
      · exact honeN q hnew

/-- A full BFS run preserves the loop invariant and only grows the
visited set. -/
theorem bfsRun_inv (f : String → List (String × String) × List (String × String))
    (roster : List (String × List String)) (D : Nat) :
    ∀ (fuel : Nat) (s sF : BfsState), BfsInv s →
      bfsRun f roster D fuel s = some sF →
      BfsInv sF ∧ (∀ x ∈ s.found_ids, x ∈ sF.found_ids) := by
  intro fuel
  induction fuel with
  | zero => intro s sF _ h; cases h
  | succ n ih =>
    intro s sF hinv h
    rw [bfsRun] at h
    cases hstep : bfsStep f roster D s with
    | none =>
      rw [hstep] at h
      have : s = sF := by exact Option.some.injEq _ _ ▸ h
      rw [← this]
      exact ⟨hinv, fun x hx => hx⟩
    | some s' =>
      rw [hstep] at h
      obtain ⟨hinv', hgrow⟩ := bfsStep_inv f roster D s s' hinv hstep
      obtain ⟨hinvF, hgrowF⟩ := ih s' sF hinv' h
      exact ⟨hinvF, fun x hx => hgrowF x (hgrow x hx)⟩

/-- Depth bound carried through the loop at cutoff `D`: all fringe papers
and all papers recorded in findings have path depth at most `D + 1`. -/
def DepthBounded (D : Nat) (s : BfsState) : Prop :=
  (∀ p ∈ s.fringe, p.get_path_depth ≤ D + 1) ∧
  (∀ e l, s.findings e = some l → ∀ p ∈ l, p.get_path_depth ≤ D + 1)

theorem bfsStep_depth (f : String → List (String × String) × List (String × String))
    (roster : List (String × List String)) (D : Nat) (s s' : BfsState)
    (hD : DepthBounded D s) (hstep : bfsStep f roster D s = some s') :
    DepthBounded D s' := by
  obtain ⟨hfr0, hfd0⟩ := hD
  cases hfr : s.fringe with
  | nil => rw [bfsStep_nil f roster D s hfr] at hstep; cases hstep
  | cons p rest =>
    obtain ⟨hd, new, hfr', hdep, -, -, -, -, -, -, hfind⟩ :=
      bfsStep_spec f roster D s s' p rest hfr hstep
    rw [hfr] at hfr0
    have hnewD : ∀ q ∈ new, q.get_path_depth ≤ D + 1 := by
      intro q hq
      rw [hdep q hq]
      omega
    constructor
    · intro q hq
      rw [hfr'] at hq
      rcases List.mem_append.mp hq with h1 | h2
      · exact hfr0 q (List.mem_cons_of_mem p h1)
      · exact hnewD q h2
    · intro e l hl q hq
      rw [hfind] at hl
      rcases check_papers_mem new roster s.findings e l q hl hq with
        ⟨l0, hl0, hql0⟩ | hnew
      · exact hfd0 e l0 hl0 q hql0
      · exact hnewD q hnew

theorem bfsRun_depth (f : String → List (String × String) × List (String × String))
    (roster : List (String × List String)) (D : Nat) :
    ∀ (fuel : Nat) (s sF : BfsState), DepthBounded D s →
      bfsRun f roster D fuel s = some sF → DepthBounded D sF := by
  intro fuel
  induction fuel with
  | zero => intro s sF _ h; cases h
  | succ n ih =>
    intro s sF hD h
    rw [bfsRun] at h
    cases hstep : bfsStep f roster D s with
    | none =>
      rw [hstep] at h
      have : s = sF := by exact Option.some.injEq _ _ ▸ h
      rw [← this]
      exact hD
    | some s' =>
      rw [hstep] at h
      exact ih s' sF (bfsStep_depth f roster D s s' hD hstep) h

/-- Concrete BFS instance: one seed paper S whose only neighbor under
`cexF` is the citing paper N, owned by editor E in `rosterN`. -/
def pS : Paper := Paper.mk "S" "seed" none none

def pN : Paper := Paper.mk "N" "nb" (some pS) none

def cexF : String → List (String × String) × List (String × String) :=
  fun x => if x = "S" then ([("N", "nb")], []) else ([], [])

def rosterN : List (String × List String) := [("E", ["N"])]

/-- C2: for every neighbor function the BFS loop terminates (some fuel
reaches a normal exit); whenever a dequeued paper's depth exceeds `D` the
whole loop exits at once with the state — remaining frontier and findings
— untouched; and each expansion appends to the FIFO frontier papers whose
depth is the dequeued parent's depth plus one. -/
theorem C2_bfs_termination
    (f : String → List (String × String) × List (String × String))
    (roster : List (String × List String)) (D : Nat) (s : BfsState) :
    (∃ fuel, (bfsRun f roster D fuel s).isSome = true) ∧
    (∀ p rest, s.fringe = p :: rest → p.get_path_depth > D →
        ∀ fuel, bfsRun f roster D (fuel + 1) s = some s) ∧
    (∀ p rest s', s.fringe = p :: rest → bfsStep f roster D s = some s' →
        ∃ new, s'.fringe = rest ++ new ∧
          ∀ q ∈ new, q.get_path_depth = 1 + p.get_path_depth) := by
  refine ⟨⟨bfsMeasure f D s + 1, bfsRun_term f roster D _ s (by omega)⟩,
    ?_, ?_⟩
  · intro p rest hfr hd fuel
    exact bfsRun_exit f roster D fuel s (bfsStep_cutoff f roster D s p rest hfr hd)
  · intro p rest s' hfr hstep
    obtain ⟨-, new, h1, h2, -⟩ := bfsStep_spec f roster D s s' p rest hfr hstep
    exact ⟨new, h1, h2⟩

/-- Witness for C2: a frontier headed by the depth-1 paper N under cutoff
`D = 0` makes the loop exit immediately with the state unchanged. -/
theorem C2_bfs_termination_witness :
    bfsRun cexF rosterN 0 (0 + 1) ⟨[pN], ["N", "S"], fun _ => none⟩ =
      some ⟨[pN], ["N", "S"], fun _ => none⟩ :=
  (C2_bfs_termination cexF rosterN 0 ⟨[pN], ["N", "S"], fun _ => none⟩).2.1
    pN [] rfl (by decide) 0

/-- C1 counterexample: with depth cutoff 0 the seed S (depth 0, not
`> 0`) is expanded, and its neighbor-fetched citing paper N — a non-seed
of depth 1 — is match-checked and recorded for editor E, so the loop
neither checks only seeds nor terminates on the very first dequeue. -/
theorem C1_cex_depth0_checks_neighbor :
    (bfsRun cexF rosterN 0 3 (initState [pS] rosterN)).map
        (fun st => st.findings "E") = some (some [pN]) ∧
    pN.get_path_depth = 1 ∧ pN.cited_paper = some pS :=
  ⟨rfl, rfl, rfl⟩

/-- C1 amended: with depth cutoff 0, papers of depth 0 are still expanded
(seeds are not exempt from expansion), so papers of depth 1 are
match-checked as well; every findings entry only ever holds papers of
depth ≤ 1, and the loop exits at the first dequeue of a paper of depth
`> 0`, leaving the state untouched from then on. -/
theorem C1_depth0_behavior
    (f : String → List (String × String) × List (String × String))
    (roster : List (String × List String)) (s0 : BfsState)
    (hfr : ∀ p ∈ s0.fringe, p.get_path_depth = 0)
    (hfd : ∀ e l, s0.findings e = some l → ∀ p ∈ l, p.get_path_depth = 0) :
    (∃ fuel sF, bfsRun f roster 0 fuel s0 = some sF ∧
        ∀ e l, sF.findings e = some l → ∀ p ∈ l, p.get_path_depth ≤ 1) ∧
    (∀ s : BfsState, ∀ p rest, s.fringe = p :: rest → p.get_path_depth = 0 →
        (bfsStep f roster 0 s).isSome = true) ∧
    (∀ s : BfsState, ∀ p rest, s.fringe = p :: rest → p.get_path_depth > 0 →
        ∀ fuel, bfsRun f roster 0 (fuel + 1) s = some s) := by
  refine ⟨?_, ?_, ?_⟩
  · have hsome := bfsRun_term f roster 0 (bfsMeasure f 0 s0 + 1) s0 (by omega)
    rcases Option.isSome_iff_exists.mp hsome with ⟨sF, hF⟩
    have hD0 : DepthBounded 0 s0 := by
      constructor
      · intro p hp; rw [hfr p hp]; omega
      · intro e l hl p hp
        rw [hfd e l hl p hp]
        omega
    have hDF := bfsRun_depth f roster 0 (bfsMeasure f 0 s0 + 1) s0 sF hD0 hF
    exact ⟨bfsMeasure f 0 s0 + 1, sF, hF, hDF.2⟩
  · intro s p rest hfrs hd
    exact bfsStep_expands f roster 0 s p rest hfrs (by omega)
  · intro s p rest hfrs hd fuel
    exact bfsRun_exit f roster 0 fuel s (bfsStep_cutoff f roster 0 s p rest hfrs hd)

/-- Witness for C1's amended claim: the single-seed instance with an empty
roster runs to completion with all findings papers of depth ≤ 1. -/
theorem C1_depth0_behavior_witness :
    ∃ fuel sF, bfsRun cexF [] 0 fuel (initState [pS] []) = some sF ∧
      ∀ e l, sF.findings e = some l → ∀ p ∈ l, p.get_path_depth ≤ 1 :=
  (C1_depth0_behavior cexF [] (initState [pS] [])
    (by
      intro p hp
      rw [List.mem_singleton.mp hp]
      rfl)
    (fun e l h => nomatch h)).1

/-- C7 counterexample: two seed papers sharing id S are both enqueued on
the frontier at initialization while the visited set records the id only
once, so an id can be enqueued twice — the same-step visited/enqueue
coupling fails for duplicate-id seeds. -/
theorem C7_cex_duplicate_seeds :
    ((initState [pS, pS] []).fringe.map Paper.id) = ["S", "S"] ∧
    (initState [pS, pS] []).found_ids = ["S"] ∧
    ¬ ((initState [pS, pS] []).fringe.map Paper.id).Nodup := by
  refine ⟨rfl, by decide, by decide⟩

/-- C7 amended: under the loop invariant (no duplicate visited ids, no
duplicate fringe ids, fringe ids visited, at most one provenance parent
everywhere — which holds once the seeds have distinct ids), every BFS
iteration preserves the invariant, only grows the visited set, and
enqueues only papers whose ids are fresh, mutually distinct, and added to
the visited set in that same step; full runs preserve all of it. -/
theorem C7_visited_invariants
    (f : String → List (String × String) × List (String × String))
    (roster : List (String × List String)) (D : Nat) (s : BfsState)
    (hinv : BfsInv s) :
    (∀ s', bfsStep f roster D s = some s' →
      BfsInv s' ∧ (∀ x ∈ s.found_ids, x ∈ s'.found_ids) ∧
      (∀ p rest, s.fringe = p :: rest →
        ∃ new, s'.fringe = rest ++ new ∧
          (new.map Paper.id).Nodup ∧
          (∀ q ∈ new, q.id ∉ s.found_ids) ∧
          (∀ x, x ∈ s'.found_ids ↔ x ∈ s.found_ids ∨ x ∈ new.map Paper.id) ∧
          (∀ q ∈ new, oneParent q))) ∧
    (∀ fuel sF, bfsRun f roster D fuel s = some sF →
      BfsInv sF ∧ ∀ x ∈ s.found_ids, x ∈ sF.found_ids) := by
  constructor
  · intro s' hstep
    obtain ⟨hinv', hgrow⟩ := bfsStep_inv f roster D s s' hinv hstep
    refine ⟨hinv', hgrow, ?_⟩
    intro p rest hfr
    obtain ⟨-, new, h1, -, hone, hfresh, hnodup, hiff, -, -, -⟩ :=
      bfsStep_spec f roster D s s' p rest hfr hstep
    exact ⟨new, h1, hnodup, hfresh, hiff, hone⟩
  · intro fuel sF hrun
    exact bfsRun_inv f roster D fuel s sF hinv hrun

/-- Witness for C7's amended claim: the loop-exit state of the single-seed
run satisfies the full invariant. -/
theorem C7_visited_invariants_witness :
    BfsInv ⟨[pN], ["N", "S"], fun _ => none⟩ := by
  have hinv : BfsInv (initState [pS] []) := by
    refine ⟨by decide, by decide, ?_, ?_, ?_⟩
    · intro p hp
      rw [List.mem_singleton.mp hp]
      decide
    · intro p hp
      rw [List.mem_singleton.mp hp]
      exact Or.inl rfl
    · intro e l h
      exact nomatch h
  have hrun : bfsRun cexF [] 0 2 (initState [pS] []) =
      some ⟨[pN], ["N", "S"], fun _ => none⟩ := rfl
  exact ((C7_visited_invariants cexF [] 0 (initState [pS] []) hinv).2 2
    ⟨[pN], ["N", "S"], fun _ => none⟩ hrun).1

/-- Total sleep bound for the roster-builder retry loop: entering with
`wait_time = 2 ^ k ≤ 8`, the remaining sleeps sum to at most
`2^4 - 2^k` (the tail of the geometric series 1+2+4+8). -/
theorem batchLoop_sum_le (resp : Nat → Nat) :
    ∀ (m i k r : Nat) (s : List Nat), 4 - k ≤ m → k ≤ 3 →
      (batchLoop resp i k r s).2.sum ≤ s.sum + (2 ^ 4 - 2 ^ k) := by
  intro m
  induction m with
  | zero => intro i k r s hm hk; omega
  | succ m ih =>
    intro i k r s hm hk
    rw [batchLoop]
    by_cases hr : r = 429
    · rw [if_pos hr]
      by_cases hw : 2 ^ (k + 1) > 10
      · rw [dif_pos hw]
        have hp : (2 : Nat) ^ (k + 1) = 2 * 2 ^ k := by
          rw [pow_succ]; ring
        have hle : (2 : Nat) ^ (k + 1) ≤ 2 ^ 4 :=
          Nat.pow_le_pow_right (by norm_num) (by omega)
        have h16 : (2 : Nat) ^ 4 = 16 := by norm_num
        simp only [List.sum_append, List.sum_cons, List.sum_nil]
        omega
      · rw [dif_neg hw]
        have hk1 : k + 1 ≤ 3 := by
          by_contra hc
          apply hw
          calc (10 : Nat) < 2 ^ 4 := by norm_num
            _ ≤ 2 ^ (k + 1) := Nat.pow_le_pow_right (by norm_num) (by omega)
        have hrec := ih (i + 1) (k + 1) (resp (i + 1)) (s ++ [2 ^ k])
          (by omega) hk1
        rw [List.sum_append] at hrec
        simp only [List.sum_cons, List.sum_nil] at hrec
        have hp : (2 : Nat) ^ (k + 1) = 2 * 2 ^ k := by
          rw [pow_succ]; ring
        have hle : (2 : Nat) ^ (k + 1) ≤ 2 ^ 4 :=
          Nat.pow_le_pow_right (by norm_num) (by omega)
        omega
    · rw [if_neg hr]
      exact Nat.le_add_right _ _

/-- C8 counterexample: on an unbroken run of 429 responses, the
roster-builder retry loop sleeps 1 + 2 + 4 + 8 = 15 time units before
giving up — more than the claimed ceiling of 10. -/
theorem C8_cex_sleeps_15 :
    scrape_batch_retry (fun _ => 429) = (429, [1, 2, 4, 8]) ∧
    ¬ ((scrape_batch_retry (fun _ => 429)).2.sum ≤ 10) := by
  have h : scrape_batch_retry (fun _ => 429) = (429, [1, 2, 4, 8]) := by
    simp [scrape_batch_retry, batchLoop]
  refine ⟨h, ?_⟩
  rw [h]
  decide

/-- C8 amended: the loop abandons retrying as soon as the next, doubled
single backoff interval would exceed 10 time units (one final request is
still sent), so the total time slept over consecutive rate-limited
responses never exceeds 1 + 2 + 4 + 8 = 15 time units. -/
theorem C8_backoff_ceiling (resp : Nat → Nat) :
    (scrape_batch_retry resp).2.sum ≤ 15 ∧
    (∀ i k r s, r = 429 → 2 ^ (k + 1) > 10 →
        batchLoop resp i k r s = (resp (i + 1), s ++ [2 ^ k])) := by
  constructor
  · have h := batchLoop_sum_le resp 4 0 0 (resp 0) [] (by omega) (by omega)
    rw [scrape_batch_retry]
    have h16 : (2 : Nat) ^ 4 = 16 := by norm_num
    have h1 : (2 : Nat) ^ 0 = 1 := by norm_num
    simp only [List.sum_nil] at h
    omega
  · intro i k r s hr hw
    rw [batchLoop, if_pos hr, dif_pos hw]

/-- Witness for C8's amended claim: an all-success server sleeps 0 ≤ 15,
and the break branch fires when the doubled wait 16 exceeds 10. -/
theorem C8_backoff_ceiling_witness :
    (scrape_batch_retry (fun _ => 200)).2.sum ≤ 15 ∧
    batchLoop (fun _ => 200) 0 3 429 [] = (200, [8]) :=
  ⟨(C8_backoff_ceiling (fun _ => 200)).1,
   by
     have h := (C8_backoff_ceiling (fun _ => 200)).2 0 3 429 [] rfl
       (by norm_num)
     simpa using h⟩

end ActionEditorSearch
